import Mathlib

/-!
Shallow embedding of `src/models/components.py` (neural-network building
blocks: ContextWindow, Concatenate, TimeDistributed, CNNEncoder,
BiLSTMEmbedder) and proofs about it.

Tensors are modelled as nested lists of integers: a rank-3 tensor of shape
(batch, time, features) is a `List (List (List Int))`, row-major, matching
the index order of the source.  Rectangularity (all rows the same length) is
carried as explicit hypotheses where a proof needs it.  Framework primitives
are modelled by their tensor semantics; `torch.stack` and `torch.cat` fail on
an empty list of tensors, which the embedding records by returning `Option`.
-/

namespace Components

/-- A block of `n` zero frames, each of feature size `f`.  Models the zero
padding tensor built by `ContextWindow._get_padding_for`
(`x.data.new(x.size(0), self.window, x.size(2)).zero_()`). -/
def zeroFrames (n f : Nat) : List (List Int) :=
  List.replicate n (List.replicate f 0)

/-- Feature size of a rank-3 tensor, i.e. `x.size(2)`: the length of the
first frame of the first batch row. -/
def featSize (x : List (List (List Int))) : Nat :=
  ((x.headD []).headD []).length

/-- Sequence length of a rank-3 tensor, i.e. `x.size(1)`: the length of the
first batch row. -/
def seqLen (x : List (List (List Int))) : Nat :=
  (x.headD []).length

namespace ContextWindow

/-- Models `ContextWindow._pad`: concatenate a `(batch, window, features)`
zero block before (`padFirst = true`) or after each batch row, along the
time axis (`torch.cat(inputs, dim=1)`). -/
def pad (window : Nat) (x : List (List (List Int))) (padFirst : Bool) :
    List (List (List Int)) :=
  let f := featSize x
  x.map (fun row =>
    if padFirst then zeroFrames window f ++ row else row ++ zeroFrames window f)

/-- Models `torch.stack(temps, dim=1)` for a list of rank-2 `(batch, k)`
tensors: the output is `(batch, len temps, k)` with
`out[b][i] = temps[i][b]`.  `torch.stack` raises on an empty tensor list,
modelled by `none`. -/
def stackDim1 (temps : List (List (List Int))) :
    Option (List (List (List Int))) :=
  match temps with
  | [] => none
  | t :: _ =>
      some ((List.range t.length).map (fun b => temps.map (fun tm => tm.getD b [])))

/-- Models `ContextWindow.forward`.  The rank-3 assertion is carried by the
type.  For `window = 0` the input is returned unchanged; otherwise the input
is padded with `window` zero frames on each side of the time axis, and for
each time step `i` the slice `[i, i + 2*window + 1)` of the padded tensor is
flattened (`view(batch_size, -1)`, i.e. a per-row join) and the slices are
stacked along dim 1. -/
def forward (window : Nat) (inputs : List (List (List Int))) :
    Option (List (List (List Int))) :=
  if window = 0 then some inputs
  else
    let seqLength := seqLen inputs
    let padded := pad window (pad window inputs true) false
    let temps := (List.range seqLength).map (fun i =>
      padded.map (fun row => ((row.drop i).take (2 * window + 1)).flatten))
    stackDim1 temps

end ContextWindow

namespace Concatenate

/-- Models `torch.cat(res, dim=-1)` on the list of sub-module results, each
a feature vector: concatenation along the (only) feature axis.  `torch.cat`
raises on an empty tensor list, modelled by `none`. -/
def catLastDim (res : List (List Int)) : Option (List Int) :=
  match res with
  | [] => none
  | _ => some res.flatten

/-- Models `Concatenate.forward` with each sub-module acting on the feature
axis (the axis `torch.cat(..., dim=-1)` concatenates): sub-module `k` is
applied to input `k` and the results are concatenated.  The
`len(inputs) == len(self.__modules)` assertion is modelled by `none` on
mismatch. -/
def forward (modules : List (List Int → List Int))
    (inputs : List (List Int)) : Option (List Int) :=
  if inputs.length = modules.length then
    catLastDim ((modules.zip inputs).map (fun p => p.1 p.2))
  else none

end Concatenate

namespace TimeDistributed

/-- Models `TimeDistributed.forward` for a rank-3 input `(batch, time, k)`:
`view(-1, *sizes[2:])` flattens the two leading axes (row-major `flatten`),
the wrapped module runs on the flattened tensor, the
`outputs.size(0) == b * t` assertion is checked, and `view(b, t, ...)`
restores the leading axes by chunking into `b` groups of `t` rows. -/
def forward (module : List (List Int) → List (List Int))
    (inputs : List (List (List Int))) : Option (List (List (List Int))) :=
  let b := inputs.length
  let t := seqLen inputs
  let outputs := module inputs.flatten
  if outputs.length = b * t then
    some ((List.range b).map (fun i => (outputs.drop (i * t)).take t))
  else none

end TimeDistributed

namespace CNNEncoder

/-- Entry `(r, v)` of one batch element's `(time, input_size)` plane as seen
by `nn.Conv2d` with height padding `ph = filter_width - 1`: `ph` implicit
zero rows precede row 0 and `ph` implicit zero rows follow the last row
(PyTorch `padding=(ph, 0)` pads BOTH ends of the height axis by `ph`).
Reads beyond the padded extent also yield 0. -/
def padAccess (ph : Nat) (x : List (List Int)) (r v : Nat) : Int :=
  if r < ph then 0 else (x.getD (r - ph) []).getD v 0

/-- One scalar output of the convolution kernel (cross-correlation, as in
PyTorch) for one filter at height offset `i`, over the padded plane. -/
def convEntry (fw isz : Nat) (weight : Nat → Nat → Int)
    (x : List (List Int)) (i : Nat) : Int :=
  ((List.range fw).map (fun u =>
    ((List.range isz).map (fun v =>
      weight u v * padAccess (fw - 1) x (i + u) v)).sum)).sum

/-- Models the
`nn.Conv2d(1, num_filters, (filter_width, input_size), padding=(filter_width-1, 0))`
layer of `CNNEncoder` applied to one batch element `x` of shape
`(time, input_size)`, after the squeeze of the singleton width axis:
a `(num_filters, time + 2*(fw-1) + 1 - fw)` tensor.  `weight fl u v` is the
kernel entry of filter `fl` at height `u`, width `v`, and `bias fl` its
bias. -/
def convolved (nf fw isz : Nat) (weight : Nat → Nat → Nat → Int)
    (bias : Nat → Int) (x : List (List Int)) : List (List Int) :=
  (List.range nf).map (fun fl =>
    (List.range (x.length + 2 * (fw - 1) + 1 - fw)).map (fun i =>
      bias fl + convEntry fw isz (weight fl) x i))

/-- Modelled from the claim's words (C5), for comparison with `convolved`:
a convolution whose time-axis padding is asymmetric — `filter_width - 1`
zero rows prepended before the sequence and none appended after (output
height `time + (fw-1) + 1 - fw`). -/
def convolvedCausal (nf fw isz : Nat) (weight : Nat → Nat → Nat → Int)
    (bias : Nat → Int) (x : List (List Int)) : List (List Int) :=
  (List.range nf).map (fun fl =>
    (List.range (x.length + (fw - 1) + 1 - fw)).map (fun i =>
      bias fl + convEntry fw isz (weight fl) x i))

/-- A convolution with no implicit padding at all, reading rows
`i .. i + fw - 1` of its input directly; used to state explicitly which
zero rows `convolved` sees. -/
def convolvedNoPad (nf fw isz : Nat) (weight : Nat → Nat → Nat → Int)
    (bias : Nat → Int) (y : List (List Int)) : List (List Int) :=
  (List.range nf).map (fun fl =>
    (List.range (y.length + 1 - fw)).map (fun i =>
      bias fl + ((List.range fw).map (fun u =>
        ((List.range isz).map (fun v =>
          weight fl u v * (y.getD (i + u) []).getD v 0)).sum)).sum))

/-- Models `CNNEncoder.forward`: the `inputs.size(-1) == self.input_size`
assertion, the convolution (with the width axis already squeezed, its
`== 1` assertion holding by construction), and the max-pool
`convolved.max(dim=-1)` over the time axis, which fails on an empty time
axis. -/
def forward (isz nf fw : Nat) (weight : Nat → Nat → Nat → Int)
    (bias : Nat → Int) (inputs : List (List (List Int))) :
    Option (List (List Int)) :=
  if featSize inputs = isz then
    if seqLen inputs + 2 * (fw - 1) + 1 - fw = 0 then none
    else some (inputs.map (fun x =>
      (convolved nf fw isz weight bias x).map (fun l => l.foldl max (l.headD 0))))
  else none

end CNNEncoder

namespace BiLSTMEmbedder

/-- One input channel of `BiLSTMEmbedder.forward`: rank 2 `(batch, time)`
or rank 3 `(batch, time, k)` (the `i.dim() in (2, 3)` assertion is carried
by the type). -/
inductive Chan where
  | two (x : List (List Int))
  | three (x : List (List (List Int)))

/-- Batch-row count of a channel (`size(0)`). -/
def Chan.batch : Chan → Nat
  | .two x => x.length
  | .three x => x.length

/-- Time-step count of a channel (`size(1)`). -/
def Chan.time : Chan → Nat
  | .two x => (x.headD []).length
  | .three x => (x.headD []).length

/-- The feature entries of a channel at batch row `b`, time step `t`,
after the `unsqueeze(-1)` applied to rank-2 channels. -/
def Chan.frame : Chan → Nat → Nat → List Int
  | .two x, b, t => [(x.getD b []).getD t 0]
  | .three x, b, t => (x.getD b []).getD t []

/-- Batch size of the channel list (`size(0)` of the first channel). -/
def batchOf (channels : List Chan) : Nat :=
  (channels.headD (.two [])).batch

/-- Time length of the channel list (`size(1)` of the first channel). -/
def timeOf (channels : List Chan) : Nat :=
  (channels.headD (.two [])).time

/-- Models
`torch.cat([i.unsqueeze(-1) if i.dim() == 2 else i for i in inputs], dim=-1)`:
the combined `(batch, time, N)` channel tensor. -/
def catChannels (channels : List Chan) : List (List (List Int)) :=
  (List.range (batchOf channels)).map (fun b =>
    (List.range (timeOf channels)).map (fun t =>
      (channels.map (fun c => c.frame b t)).flatten))

/-- Models the derived per-sequence lengths:
`mask = torch.sum((cat != self.padding_idx).long(), dim=-1) != 0` followed
by `seq_lengths = torch.sum(mask.long(), dim=1)` — for each batch row, the
number of time steps at which some channel entry differs from the padding
index. -/
def seqLengths (padIdx : Int) (channels : List Chan) : List Nat :=
  (catChannels channels).map (fun row =>
    row.countP (fun frame => frame.countP (fun v => v != padIdx) != 0))

/-- Indices `0 .. n-1` sorted by descending key: the index component of
`seq_lengths.sort(0, descending=True)` (`torch.sort` returns the sorted
values together with the indices realising them). -/
def argsortDesc (keys : List Nat) : List Nat :=
  List.insertionSort (fun i j => keys.getD j 0 ≤ keys.getD i 0)
    (List.range keys.length)

/-- Indices `0 .. n-1` sorted by ascending key: the index component of
`sent_perm.sort(0, descending=False)`. -/
def argsortAsc (keys : List Nat) : List Nat :=
  List.insertionSort (fun i j => keys.getD i 0 ≤ keys.getD j 0)
    (List.range keys.length)

/-- Reordering the batch rows of a channel by a list of row indices
(row `b` of the result is row `σ b` of the original). -/
def permuteChan (σ : List Nat) : Chan → Chan
  | .two x => .two (σ.map (fun i => x.getD i []))
  | .three x => .three (σ.map (fun i => x.getD i []))

/-- Time-axis rectangularity of a channel: every batch row has `T` time
steps. -/
def Chan.rect : Chan → Nat → Prop
  | .two x, T => ∀ r ∈ x, r.length = T
  | .three x, T => ∀ r ∈ x, r.length = T

/-- Rectangularity of a channel is decidable. -/
instance Chan.rectDecidable (c : Chan) (T : Nat) : Decidable (c.rect T) :=
  match c with
  | .two x => inferInstanceAs (Decidable (∀ r ∈ x, r.length = T))
  | .three x => inferInstanceAs (Decidable (∀ r ∈ x, r.length = T))

/-- The batch-row slice of a channel, as handed to a per-row embedder. -/
inductive ChanRow where
  | two (r : List Int)
  | three (r : List (List Int))

/-- The slice of a channel at batch row `b`. -/
def Chan.rowAt : Chan → Nat → ChanRow
  | .two x, b => .two (x.getD b [])
  | .three x, b => .three (x.getD b [])

/-- An external embedder that embeds each batch row independently (the
spec's "external embedding lookup"): row `b` of its `(batch, time, E)`
output is a function of the channels' row-`b` slices only. -/
def rowwiseEmbedder (embedRow : List ChanRow → List (List Int))
    (channels : List Chan) : List (List (List Int)) :=
  (List.range (batchOf channels)).map (fun b =>
    embedRow (channels.map (fun c => c.rowAt b)))

/-- Models `BiLSTMEmbedder.forward`.  The external embedder is a parameter;
the packed 2-layer bidirectional LSTM is abstracted by a per-sequence
function `lstmSeq` (a packed recurrent layer processes each sequence of the
batch independently), applied to the first `len` embedded frames of each
sequence as `pack_padded_sequence` presents them; `pad_packed_sequence`
then zero-fills each sequence up to the longest length in the batch.
`torch.cat` fails on an empty channel list and `pack_padded_sequence`
rejects zero sequence lengths, both modelled by `none`.  The sort / inverse
sort pair mirrors `seq_lengths.sort(0, descending=True)` and
`sent_perm.sort(0, descending=False)`. -/
def forward (hiddenSize : Nat) (padIdx : Int)
    (embedder : List Chan → List (List (List Int)))
    (lstmSeq : List (List Int) → List (List Int))
    (channels : List Chan) : Option (List (List (List Int))) :=
  if channels.isEmpty then none
  else if (seqLengths padIdx channels).any (fun l => l == 0) then none
  else
    let embedded := embedder channels
    let lens := seqLengths padIdx channels
    let sentPerm := argsortDesc lens
    let sortedLens := sentPerm.map (fun j => lens.getD j 0)
    let maxLen := sortedLens.headD 0
    let sortedEmb := sentPerm.map (fun j => embedded.getD j [])
    let lstmOut := (sortedEmb.zip sortedLens).map (fun p =>
      lstmSeq (p.1.take p.2) ++
        List.replicate (maxLen - p.2) (List.replicate (2 * hiddenSize) (0 : Int)))
    let originalPerm := argsortAsc sentPerm
    some (originalPerm.map (fun i => lstmOut.getD i []))

end BiLSTMEmbedder

end Components

open Components

/-- Claim C9: for every rank-3 input, `ContextWindow.forward` with
`window = 0` is the identity function: it returns the input tensor
unchanged. -/
theorem contextWindow_window_zero_identity (inputs : List (List (List Int))) :
    ContextWindow.forward 0 inputs = some inputs := rfl

/-- Slicing a zero-padded row: the window `[i, i + 2w + 1)` of a row padded
with `w` zero frames on each side consists of the frames `i - w .. i + w` of
the original row, with out-of-range positions replaced by zero frames. -/
theorem slice_of_zero_padded (w L F i : Nat) (row : List (List Int))
    (hrow : row.length = L) (hi : i < L) :
    ((zeroFrames w F ++ row ++ zeroFrames w F).drop i).take (2 * w + 1) =
      (List.range (2 * w + 1)).map (fun k =>
        if i + k < w ∨ L + w ≤ i + k then List.replicate F (0 : Int)
        else row.getD (i + k - w) []) := by
  have hZ : (zeroFrames w F).length = w := by simp [zeroFrames]
  apply List.ext_getElem
  · simp [zeroFrames, hrow]
    omega
  · intro k h1 h2
    have hk : k < 2 * w + 1 := by
      simpa using h2
    have hik : i + k < ((zeroFrames w F ++ row ++ zeroFrames w F)).length := by
      simp [zeroFrames, hrow]; omega
    rw [List.getElem_take, List.getElem_drop, List.getElem_map,
      List.getElem_range]
    by_cases hc1 : i + k < w
    · have hlt : i + k < (zeroFrames w F ++ row).length := by
        simp [zeroFrames, hrow]; omega
      have hlt2 : i + k < (zeroFrames w F).length := by omega
      rw [List.getElem_append_left hlt, List.getElem_append_left hlt2]
      simp [zeroFrames, hc1]
    · by_cases hc2 : i + k < w + L
      · have hlt : i + k < (zeroFrames w F ++ row).length := by
          simp [zeroFrames, hrow]; omega
        have hge : (zeroFrames w F).length ≤ i + k := by omega
        rw [List.getElem_append_left hlt, List.getElem_append_right hge]
        have hcond : ¬(i + k < w ∨ L + w ≤ i + k) := by omega
        rw [if_neg hcond]
        have hb : i + k - (zeroFrames w F).length < row.length := by
          simp [zeroFrames, hrow]; omega
        rw [List.getD_eq_getElem row [] (by omega : i + k - w < row.length)]
        congr 1
        omega
      · have hge : (zeroFrames w F ++ row).length ≤ i + k := by
          simp [zeroFrames, hrow]; omega
        rw [List.getElem_append_right hge]
        have hcond : i + k < w ∨ L + w ≤ i + k := by omega
        simp [zeroFrames, hcond]

/-- Claim C2 (amended): for a rectangular rank-3 input of shape
`(batch, L, F)` with a nonempty batch and `L ≥ 1`, `ContextWindow.forward`
with `window = w > 0` returns a tensor of shape `(batch, L, (2w+1)*F)` whose
vector at batch row `b` and time step `i` is the flattened concatenation of
frames `i - w .. i + w` of input row `b`, frames outside `[0, L)` replaced by
zero vectors. -/
theorem contextWindow_shape_content (w L F : Nat)
    (inputs : List (List (List Int)))
    (hw : 0 < w) (hB : inputs ≠ []) (hL : 0 < L)
    (hrow : ∀ r ∈ inputs, r.length = L)
    (hfr : ∀ r ∈ inputs, ∀ fr ∈ r, fr.length = F) :
    ∃ out, ContextWindow.forward w inputs = some out ∧
      out.length = inputs.length ∧
      ∀ b, b < inputs.length →
        (out.getD b []).length = L ∧
        ∀ i, i < L →
          (out.getD b []).getD i [] =
            ((List.range (2 * w + 1)).map (fun k =>
              if i + k < w ∨ L + w ≤ i + k then List.replicate F (0 : Int)
              else (inputs.getD b []).getD (i + k - w) [])).flatten ∧
          ((out.getD b []).getD i []).length = (2 * w + 1) * F := by
  obtain ⟨r0, rest, rfl⟩ : ∃ r0 rest, inputs = r0 :: rest :=
    ⟨inputs.headD [], inputs.tail, by cases inputs with
      | nil => exact absurd rfl hB
      | cons a l => rfl⟩
  set inputs := r0 :: rest with hinputs
  have hr0 : r0.length = L := hrow r0 (by simp [hinputs])
  obtain ⟨fr0, r0t, hfr0⟩ : ∃ fr0 r0t, r0 = fr0 :: r0t := by
    cases hr : r0 with
    | nil => rw [hr] at hr0; simp at hr0; omega
    | cons a l => exact ⟨a, l, rfl⟩
  have hF : featSize inputs = F := by
    simp [featSize, hinputs, hfr0]
    exact hfr r0 (by simp [hinputs]) fr0 (by simp [hfr0])
  have hseq : seqLen inputs = L := by simp [seqLen, hinputs, hr0]
  obtain ⟨w0, rfl⟩ : ∃ w0, w = w0 + 1 := ⟨w - 1, by omega⟩
  set Z := zeroFrames (w0 + 1) F with hZdef
  have hpad1 : ContextWindow.pad (w0 + 1) inputs true =
      inputs.map (fun row => Z ++ row) := by
    simp [ContextWindow.pad, hF]
  have hpadF : featSize (inputs.map (fun row => Z ++ row)) = F := by
    simp [featSize, hinputs, hZdef, zeroFrames, List.replicate_succ]
  have hpadded : ContextWindow.pad (w0 + 1)
      (ContextWindow.pad (w0 + 1) inputs true) false =
      inputs.map (fun row => Z ++ row ++ Z) := by
    rw [hpad1]
    simp [ContextWindow.pad, hpadF, List.map_map]
  have hfwd : ContextWindow.forward (w0 + 1) inputs =
      ContextWindow.stackDim1 ((List.range L).map (fun i =>
        (inputs.map (fun row => Z ++ row ++ Z)).map
          (fun row => ((row.drop i).take (2 * (w0 + 1) + 1)).flatten))) := by
    rw [ContextWindow.forward, if_neg (by omega), hseq, hpadded]
  simp only [List.map_map] at hfwd
  set g := fun i => inputs.map (fun row =>
      ((((Z ++ row ++ Z).drop i).take (2 * (w0 + 1) + 1))).flatten) with hg
  have hfwd2 : ContextWindow.forward (w0 + 1) inputs =
      ContextWindow.stackDim1 ((List.range L).map g) := hfwd
  have hrangeL : List.range L = 0 :: (List.range (L - 1)).map (· + 1) := by
    obtain ⟨L0, rfl⟩ : ∃ L0, L = L0 + 1 := ⟨L - 1, by omega⟩
    simp [List.range_succ_eq_map]
  have hstack : ContextWindow.stackDim1 ((List.range L).map g) =
      some ((List.range (g 0).length).map (fun b =>
        ((List.range L).map g).map (fun tm => tm.getD b []))) := by
    rw [hrangeL]
    simp only [List.map_cons]
    rfl
  have hg0len : (g 0).length = inputs.length := by simp [hg]
  set B := inputs.length with hBdef
  set out := (List.range B).map (fun b =>
      ((List.range L).map g).map (fun tm => tm.getD b [])) with hout
  refine ⟨out, by rw [hfwd2, hstack, hg0len], by simp [hout], ?_⟩
  intro b hb
  have houtb : out.getD b [] = ((List.range L).map g).map (fun tm => tm.getD b []) := by
    rw [hout, List.getD_eq_getElem _ _ (by simpa using hb), List.getElem_map,
      List.getElem_range]
  have houtblen : (out.getD b []).length = L := by rw [houtb]; simp
  refine ⟨houtblen, ?_⟩
  intro i hi
  have hblt : b < inputs.length := hb
  have hbget : inputs.getD b [] = inputs[b] := List.getD_eq_getElem _ _ hblt
  have hmem : inputs[b] ∈ inputs := List.getElem_mem hblt
  have hrowb : inputs[b].length = L := hrow _ hmem
  have h1 : (out.getD b []).getD i [] = (g i).getD b [] := by
    rw [houtb, List.getD_eq_getElem _ _ (by simp; omega), List.getElem_map,
      List.getElem_map, List.getElem_range]
  have h2 : (g i).getD b [] =
      (((Z ++ inputs[b] ++ Z).drop i).take (2 * (w0 + 1) + 1)).flatten := by
    rw [hg]
    rw [List.getD_eq_getElem _ _ (by simpa using hblt), List.getElem_map]
  have hslice := slice_of_zero_padded (w0 + 1) L F i inputs[b] hrowb hi
  have hmain : (out.getD b []).getD i [] =
      ((List.range (2 * (w0 + 1) + 1)).map (fun k =>
        if i + k < w0 + 1 ∨ L + (w0 + 1) ≤ i + k then List.replicate F (0 : Int)
        else inputs[b].getD (i + k - (w0 + 1)) [])).flatten := by
    rw [h1, h2, hslice]
  constructor
  · rw [hbget]
    exact hmain
  · rw [hmain, List.length_flatten, List.map_map]
    have hconst : (List.range (2 * (w0 + 1) + 1)).map
        (List.length ∘ (fun k =>
          if i + k < w0 + 1 ∨ L + (w0 + 1) ≤ i + k then List.replicate F (0 : Int)
          else inputs[b].getD (i + k - (w0 + 1)) [])) =
        (List.range (2 * (w0 + 1) + 1)).map (fun _ => F) := by
      apply List.map_congr_left
      intro k hk
      simp only [Function.comp]
      by_cases hc : i + k < w0 + 1 ∨ L + (w0 + 1) ≤ i + k
      · simp [hc]
      · rw [if_neg hc]
        have hkl : i + k - (w0 + 1) < L := by omega
        rw [List.getD_eq_getElem _ _ (by omega : i + k - (w0 + 1) < inputs[b].length)]
        exact hfr _ hmem _ (List.getElem_mem _)
    rw [hconst, List.map_const', List.sum_replicate, List.length_range,
      smul_eq_mul]

/-- Witness for claim C2 at the concrete input `[[[5]]]` (shape (1,1,1)) with
window 1. -/
theorem contextWindow_shape_content_witness :
    ∃ out, ContextWindow.forward 1 [[[(5 : Int)]]] = some out ∧
      out.length = 1 ∧
      ∀ b, b < 1 →
        (out.getD b []).length = 1 ∧
        ∀ i, i < 1 →
          (out.getD b []).getD i [] =
            ((List.range (2 * 1 + 1)).map (fun k =>
              if i + k < 1 ∨ 1 + 1 ≤ i + k then List.replicate 1 (0 : Int)
              else (([[[(5 : Int)]]] : List (List (List Int))).getD b []).getD
                (i + k - 1) [])).flatten ∧
          ((out.getD b []).getD i []).length = (2 * 1 + 1) * 1 :=
  contextWindow_shape_content 1 1 1 [[[(5 : Int)]]] (by decide) (by decide)
    (by decide) (by decide) (by decide)

/-- Counterexample for claim C2 as stated: at the rank-3 input `[[]]` of
shape (1, 0, 0) and window 2, `ContextWindow.forward` does not return a
tensor at all (`torch.stack` on the empty list of time slices fails), so in
particular it does not return one of shape (1, 0, 5*0). -/
theorem contextWindow_empty_seq_no_output :
    ContextWindow.forward 2 [[]] = none := rfl

/-- Claim C6 (amended): for every rank-3 input, `ContextWindow.forward`
succeeds if and only if the window is zero or the sequence length is at
least 1; with a positive window and an empty time axis the final
`torch.stack` fails. -/
theorem contextWindow_success_iff (window : Nat)
    (inputs : List (List (List Int))) :
    (ContextWindow.forward window inputs).isSome = true ↔
      (window = 0 ∨ 1 ≤ seqLen inputs) := by
  by_cases hw : window = 0
  · simp [ContextWindow.forward, hw]
  · have hshow : ContextWindow.forward window inputs =
        ContextWindow.stackDim1 ((List.range (seqLen inputs)).map (fun i =>
          (ContextWindow.pad window (ContextWindow.pad window inputs true)
            false).map
            (fun row => ((row.drop i).take (2 * window + 1)).flatten))) := by
      rw [ContextWindow.forward, if_neg hw]
    rw [hshow]
    by_cases hs : seqLen inputs = 0
    · rw [hs]
      simp [ContextWindow.stackDim1, hw]
    · obtain ⟨n, hn⟩ : ∃ n, seqLen inputs = n + 1 :=
        ⟨seqLen inputs - 1, by omega⟩
      rw [hn, List.range_succ_eq_map]
      simp only [List.map_cons]
      constructor
      · intro _
        right
        omega
      · intro _
        rfl

/-- Counterexample for claim C6 as stated: the rank-3 input `[[], []]` of
shape (2, 0, 0) with window 1 passes the rank assertion, yet the forward
computation fails rather than returning a tensor. -/
theorem contextWindow_rank3_failure :
    ContextWindow.forward 1 [[], []] = none := rfl

/-- Claim C7 (amended): `Concatenate.forward` fails iff the number of inputs
differs from the number of sub-modules, or both lists are empty (the final
`torch.cat` rejects an empty result list); otherwise it applies sub-module
`k` to input `k` and returns the concatenation of the results along the
feature axis, whose length is the sum of the sub-modules' output feature
sizes. -/
theorem concatenate_forward_spec (modules : List (List Int → List Int))
    (inputs : List (List Int)) :
    (Concatenate.forward modules inputs = none ↔
      (inputs.length ≠ modules.length ∨ modules = [])) ∧
    (inputs.length = modules.length → modules ≠ [] →
      Concatenate.forward modules inputs =
        some (((modules.zip inputs).map (fun p => p.1 p.2)).flatten) ∧
      (((modules.zip inputs).map (fun p => p.1 p.2)).flatten).length =
        ((modules.zip inputs).map (fun p => (p.1 p.2).length)).sum) := by
  constructor
  · rw [Concatenate.forward]
    by_cases h : inputs.length = modules.length
    · rw [if_pos h]
      rcases modules with _ | ⟨m, ms⟩
      · simp [Concatenate.catLastDim]
      · rcases inputs with _ | ⟨i, is⟩
        · simp at h
        · simp [Concatenate.catLastDim, h]
    · rw [if_neg h]
      simp [h]
  · intro h hne
    rw [Concatenate.forward, if_pos h]
    rcases modules with _ | ⟨m, ms⟩
    · exact absurd rfl hne
    · rcases inputs with _ | ⟨i, is⟩
      · simp at h
      · refine ⟨rfl, ?_⟩
        simp only [List.length_flatten, List.map_map]
        rfl

/-- Counterexample for claim C7 as stated: with zero sub-modules and zero
inputs the two lengths agree, yet `Concatenate.forward` still fails, because
`torch.cat` rejects the empty list of results. -/
theorem concatenate_empty_lists_fail :
    Concatenate.forward [] [] = none := rfl

/-- Chunking a flattened list of `n` equal-length rows back into `n` rows
of that length is the identity. -/
theorem chunk_flatten_eq {α : Type} (t : Nat) :
    ∀ (l : List (List α)), (∀ r ∈ l, r.length = t) →
      (List.range l.length).map (fun i => ((l.flatten).drop (i * t)).take t) = l := by
  intro l
  induction l with
  | nil => intro _; rfl
  | cons a l ih =>
      intro hr
      have ha : a.length = t := hr a (by simp)
      rw [List.length_cons, List.range_succ_eq_map, List.map_cons]
      congr 1
      · rw [Nat.zero_mul, List.drop_zero, List.flatten_cons, ← ha,
          List.take_left]
      · rw [List.map_map]
        have hmc : ∀ i ∈ List.range l.length,
            ((fun i => (((a :: l).flatten).drop (i * t)).take t) ∘ (· + 1)) i =
            (fun i => ((l.flatten).drop (i * t)).take t) i := by
          intro i _
          simp only [Function.comp, List.flatten_cons]
          have : (i + 1) * t = a.length + i * t := by rw [ha]; ring
          rw [this, List.drop_append]
        rw [List.map_congr_left hmc, ih (fun r hrr => hr r (by simp [hrr]))]

/-- Claim C8: for every rank-3 tensor (rectangular: every batch row has the
common time length), `TimeDistributed` wrapping the identity module returns
the input tensor unchanged — flattening the batch and time axes and
restoring them is a round trip. -/
theorem timeDistributed_identity (inputs : List (List (List Int)))
    (hrect : ∀ r ∈ inputs, r.length = seqLen inputs) :
    TimeDistributed.forward (fun x => x) inputs = some inputs := by
  have hflat : inputs.flatten.length = inputs.length * seqLen inputs := by
    rw [List.length_flatten]
    have hrep : inputs.map List.length =
        List.replicate inputs.length (seqLen inputs) := by
      rw [List.eq_replicate_iff]
      refine ⟨by simp, ?_⟩
      intro b hb
      obtain ⟨r, hrm, hlen⟩ := List.mem_map.1 hb
      rw [← hlen]
      exact hrect r hrm
    rw [hrep, List.sum_replicate, smul_eq_mul]
  have hshow : TimeDistributed.forward (fun x => x) inputs =
      if inputs.flatten.length = inputs.length * seqLen inputs then
        some ((List.range inputs.length).map (fun i =>
          ((inputs.flatten).drop (i * seqLen inputs)).take (seqLen inputs)))
      else none := rfl
  rw [hshow, if_pos hflat, chunk_flatten_eq (seqLen inputs) inputs hrect]

/-- Witness for claim C8 at the concrete rank-3 input `[[[1],[2]],[[3],[4]]]`
of shape (2, 2, 1). -/
theorem timeDistributed_identity_witness :
    TimeDistributed.forward (fun x => x)
      [[[(1 : Int)], [2]], [[3], [4]]] =
      some [[[(1 : Int)], [2]], [[3], [4]]] :=
  timeDistributed_identity [[[(1 : Int)], [2]], [[3], [4]]] (by decide)

/-- Claim C4: for every rectangular rank-3 input of shape
`(batch, H, input_size)` with a nonempty batch, `H ≥ 1` and the feature
size equal to the configured `input_size`, `CNNEncoder.forward` returns a
tensor of shape `(batch, num_filters)`, for every value of `H`. -/
theorem cnnEncoder_output_shape (isz nf fw H : Nat)
    (weight : Nat → Nat → Nat → Int) (bias : Nat → Int)
    (inputs : List (List (List Int)))
    (hfw : 0 < fw) (hH : 0 < H) (hB : inputs ≠ [])
    (hrow : ∀ r ∈ inputs, r.length = H)
    (hfr : ∀ r ∈ inputs, ∀ fr ∈ r, fr.length = isz) :
    ∃ out, CNNEncoder.forward isz nf fw weight bias inputs = some out ∧
      out.length = inputs.length ∧ ∀ r ∈ out, r.length = nf := by
  obtain ⟨r0, rest, rfl⟩ : ∃ r0 rest, inputs = r0 :: rest :=
    ⟨inputs.headD [], inputs.tail, by cases inputs with
      | nil => exact absurd rfl hB
      | cons a l => rfl⟩
  set inputs := r0 :: rest with hinputs
  have hr0 : r0.length = H := hrow r0 (by simp [hinputs])
  obtain ⟨fr0, r0t, hfr0⟩ : ∃ fr0 r0t, r0 = fr0 :: r0t := by
    cases hr : r0 with
    | nil => rw [hr] at hr0; simp at hr0; omega
    | cons a l => exact ⟨a, l, rfl⟩
  have hF : featSize inputs = isz := by
    simp [featSize, hinputs, hfr0]
    exact hfr r0 (by simp [hinputs]) fr0 (by simp [hfr0])
  have hseq : seqLen inputs = H := by simp [seqLen, hinputs, hr0]
  have hne : ¬(seqLen inputs + 2 * (fw - 1) + 1 - fw = 0) := by
    rw [hseq]; omega
  refine ⟨inputs.map (fun x =>
    (CNNEncoder.convolved nf fw isz weight bias x).map
      (fun l => l.foldl max (l.headD 0))), ?_, by simp, ?_⟩
  · rw [CNNEncoder.forward, if_pos hF, if_neg hne]
  · intro r hrm
    obtain ⟨x, _, hx⟩ := List.mem_map.1 hrm
    rw [← hx]
    simp [CNNEncoder.convolved]

/-- Witness for claim C4 at a concrete (1, 1, 1) input with one filter of
width 2. -/
theorem cnnEncoder_output_shape_witness :
    ∃ out, CNNEncoder.forward 1 1 2 (fun _ _ _ => (1 : Int)) (fun _ => (0 : Int))
        [[[(3 : Int)]]] = some out ∧
      out.length = 1 ∧ ∀ r ∈ out, r.length = 1 :=
  cnnEncoder_output_shape 1 1 2 1 (fun _ _ _ => (1 : Int)) (fun _ => (0 : Int))
    [[[(3 : Int)]]] (by decide) (by decide) (by decide) (by decide) (by decide)

/-- Reading entry `(r, v)` through `padAccess` is the same as reading the
plane with `ph` explicit zero rows prepended and appended. -/
theorem padAccess_eq_padded_rows (ph isz : Nat) (x : List (List Int))
    (r v : Nat) :
    CNNEncoder.padAccess ph x r v =
      ((zeroFrames ph isz ++ x ++ zeroFrames ph isz).getD r []).getD v 0 := by
  have hZ : (zeroFrames ph isz).length = ph := by simp [zeroFrames]
  have hrep0 : (List.replicate isz (0 : Int)).getD v 0 = 0 := by
    rw [List.getD_eq_getElem?_getD, List.getElem?_replicate]
    by_cases hv : v < isz
    · simp [hv]
    · simp [hv]
  have houter : (zeroFrames ph isz ++ (x ++ zeroFrames ph isz)).getD r [] =
      if r < ph then List.replicate isz 0
      else if r - ph < x.length then x.getD (r - ph) []
      else if r - ph - x.length < ph then List.replicate isz 0
      else [] := by
    rw [List.getD_eq_getElem?_getD _ r _]
    by_cases h1 : r < ph
    · rw [List.getElem?_append_left (by omega : r < (zeroFrames ph isz).length)]
      simp [zeroFrames, List.getElem?_replicate, h1]
    · rw [List.getElem?_append_right (by omega : (zeroFrames ph isz).length ≤ r),
        hZ]
      by_cases h2 : r - ph < x.length
      · rw [List.getElem?_append_left h2]
        simp [h1, h2]
      · rw [List.getElem?_append_right (by omega : x.length ≤ r - ph)]
        by_cases h3 : r - ph - x.length < ph
        · simp [zeroFrames, List.getElem?_replicate, h1, h2, h3]
        · simp [zeroFrames, List.getElem?_replicate, h1, h2, h3]
  rw [CNNEncoder.padAccess, List.append_assoc, houter]
  by_cases h1 : r < ph
  · rw [if_pos h1, if_pos h1, hrep0]
  · rw [if_neg h1, if_neg h1]
    by_cases h2 : r - ph < x.length
    · rw [if_pos h2]
    · rw [if_neg h2]
      have hx : x.getD (r - ph) [] = [] := by
        rw [List.getD_eq_getElem?_getD _ (r - ph) _,
          List.getElem?_eq_none (by omega : x.length ≤ r - ph)]
        rfl
      rw [hx]
      by_cases h3 : r - ph - x.length < ph
      · rw [if_pos h3, hrep0]
        simp
      · rw [if_neg h3]

/-- Claim C5 (amended): the `CNNEncoder` convolution pads the time axis
symmetrically — `filter_width - 1` zero rows both prepended and appended
(PyTorch `padding=(filter_width-1, 0)` pads both ends of the height axis) —
with no padding on the feature axis, and the convolved time length exceeds
the input time length by exactly `filter_width - 1`. -/
theorem cnn_conv_symmetric_padding (nf fw isz : Nat)
    (weight : Nat → Nat → Nat → Int) (bias : Nat → Int)
    (x : List (List Int)) (hfw : 0 < fw) :
    CNNEncoder.convolved nf fw isz weight bias x =
      CNNEncoder.convolvedNoPad nf fw isz weight bias
        (zeroFrames (fw - 1) isz ++ x ++ zeroFrames (fw - 1) isz) ∧
    ∀ r ∈ CNNEncoder.convolved nf fw isz weight bias x,
      r.length = x.length + (fw - 1) := by
  have hlen : (zeroFrames (fw - 1) isz ++ x ++ zeroFrames (fw - 1) isz).length
      + 1 - fw = x.length + 2 * (fw - 1) + 1 - fw := by
    simp [zeroFrames]
    omega
  constructor
  · rw [CNNEncoder.convolved, CNNEncoder.convolvedNoPad, hlen]
    refine List.map_congr_left ?_
    intro fl _
    refine List.map_congr_left ?_
    intro i _
    congr 1
    rw [CNNEncoder.convEntry]
    refine congrArg List.sum (List.map_congr_left ?_)
    intro u _
    refine congrArg List.sum (List.map_congr_left ?_)
    intro v _
    rw [padAccess_eq_padded_rows (fw - 1) isz x (i + u) v]
  · intro r hr
    obtain ⟨fl, _, hfl⟩ := List.mem_map.1 hr
    rw [← hfl]
    simp
    omega

/-- Witness for the amended claim C5 at a concrete width-2 kernel and a
(1, 1) plane. -/
theorem cnn_conv_symmetric_padding_witness :
    CNNEncoder.convolved 1 2 1 (fun _ _ _ => (1 : Int)) (fun _ => (0 : Int))
        [[(1 : Int)]] =
      CNNEncoder.convolvedNoPad 1 2 1 (fun _ _ _ => (1 : Int))
        (fun _ => (0 : Int))
        (zeroFrames 1 1 ++ [[(1 : Int)]] ++ zeroFrames 1 1) ∧
    ∀ r ∈ CNNEncoder.convolved 1 2 1 (fun _ _ _ => (1 : Int))
        (fun _ => (0 : Int)) [[(1 : Int)]],
      r.length = 1 + 1 :=
  cnn_conv_symmetric_padding 1 2 1 (fun _ _ _ => (1 : Int)) (fun _ => (0 : Int))
    [[(1 : Int)]] (by decide)

/-- Counterexample for claim C5 as stated: with one width-2 all-ones filter
on a (1, 1) input plane, the code's convolution (symmetric padding, output
time length 2) differs from the claimed causal left-only padding (output
time length 1). -/
theorem cnn_conv_not_causal :
    CNNEncoder.convolved 1 2 1 (fun _ _ _ => (1 : Int)) (fun _ => (0 : Int))
        [[(2 : Int)]] ≠
      CNNEncoder.convolvedCausal 1 2 1 (fun _ _ _ => (1 : Int))
        (fun _ => (0 : Int)) [[(2 : Int)]] := by
  decide

open Components.BiLSTMEmbedder

/-- Reading entry `i` of a table built over `List.range n`. -/
theorem getD_map_range {α : Type} (f : Nat → α) (d : α) {n i : Nat}
    (hi : i < n) : ((List.range n).map f).getD i d = f i := by
  rw [List.getD_eq_getElem _ _ (by simpa using hi), List.getElem_map,
    List.getElem_range]

/-- The descending argsort is a permutation of `0 .. n-1`. -/
theorem argsortDesc_perm (keys : List Nat) :
    List.Perm (argsortDesc keys) (List.range keys.length) :=
  List.perm_insertionSort _ _

/-- The ascending argsort is a permutation of `0 .. n-1`. -/
theorem argsortAsc_perm (keys : List Nat) :
    List.Perm (argsortAsc keys) (List.range keys.length) :=
  List.perm_insertionSort _ _

/-- Reading a whole list back through `getD` at indices `0 .. n-1`. -/
theorem map_getD_range_eq {α : Type} (l : List α) (d : α) :
    (List.range l.length).map (fun i => l.getD i d) = l := by
  apply List.ext_getElem (by simp)
  intro i h1 h2
  rw [List.getElem_map, List.getElem_range, List.getD_eq_getElem l d h2]

/-- Gathering a list along a permutation of its index range permutes it. -/
theorem map_getD_perm {α : Type} (l : List α) (d : α) (sp : List Nat)
    (hp : List.Perm sp (List.range l.length)) :
    List.Perm (sp.map (fun i => l.getD i d)) l := by
  have h := hp.map (fun i => l.getD i d)
  rwa [map_getD_range_eq l d] at h

/-- The keys gathered along the descending argsort are sorted descending. -/
theorem argsortDesc_sorted (keys : List Nat) :
    List.Pairwise (fun a b : Nat => b ≤ a)
      ((argsortDesc keys).map (fun j => keys.getD j 0)) := by
  rw [List.pairwise_map]
  haveI : IsTotal Nat (fun i j => keys.getD j 0 ≤ keys.getD i 0) :=
    ⟨fun a b => (le_total (keys.getD b 0) (keys.getD a 0)).imp id id⟩
  haveI : IsTrans Nat (fun i j => keys.getD j 0 ≤ keys.getD i 0) :=
    ⟨fun _ _ _ hab hbc => le_trans hbc hab⟩
  exact List.sorted_insertionSort _ _

/-- The keys gathered along the ascending argsort are sorted ascending. -/
theorem argsortAsc_sorted (keys : List Nat) :
    List.Pairwise (fun a b : Nat => a ≤ b)
      ((argsortAsc keys).map (fun j => keys.getD j 0)) := by
  rw [List.pairwise_map]
  haveI : IsTotal Nat (fun i j => keys.getD i 0 ≤ keys.getD j 0) :=
    ⟨fun a b => (le_total (keys.getD a 0) (keys.getD b 0)).imp id id⟩
  haveI : IsTrans Nat (fun i j => keys.getD i 0 ≤ keys.getD j 0) :=
    ⟨fun _ _ _ hab hbc => le_trans hab hbc⟩
  exact List.sorted_insertionSort _ _

/-- Sorting the values of a permutation of `0 .. n-1` ascending recovers
`0 .. n-1`, so gathering the permutation along its own ascending argsort is
the identity: the two permutations computed by `BiLSTMEmbedder.forward` are
mutually inverse. -/
theorem sortPerm_inverse (sp : List Nat) (hp : List.Perm sp (List.range sp.length))
    {i : Nat} (hi : i < sp.length) :
    sp.getD ((argsortAsc sp).getD i 0) 0 = i := by
  have hlenAs : (argsortAsc sp).length = sp.length := by
    simpa using (argsortAsc_perm sp).length_eq
  have hperm : List.Perm ((argsortAsc sp).map (fun j => sp.getD j 0))
      (List.range sp.length) :=
    (map_getD_perm sp 0 (argsortAsc sp) (argsortAsc_perm sp)).trans hp
  have hsorted : List.Sorted (fun a b : Nat => a ≤ b) (List.range sp.length) :=
    (List.pairwise_lt_range sp.length).imp le_of_lt
  have heq : (argsortAsc sp).map (fun j => sp.getD j 0) =
      List.range sp.length :=
    List.eq_of_perm_of_sorted hperm (argsortAsc_sorted sp) hsorted
  have h1 : ((argsortAsc sp).map (fun j => sp.getD j 0)).getD i 0 = i := by
    rw [heq, List.getD_eq_getElem _ _ (by simpa using hi), List.getElem_range]
  rw [List.getD_eq_getElem _ _ (by simp [hlenAs]; omega : i < ((argsortAsc sp).map (fun j => sp.getD j 0)).length),
    List.getElem_map] at h1
  rw [List.getD_eq_getElem _ _ (by omega : i < (argsortAsc sp).length)]
  exact h1

/-- An upper bound on every element bounds the running maximum. -/
theorem foldr_max_le {a : Nat} :
    ∀ {t : List Nat}, (∀ x ∈ t, x ≤ a) → t.foldr max 0 ≤ a
  | [], _ => Nat.zero_le a
  | b :: t, h => by
      rw [List.foldr_cons]
      exact max_le (h b (by simp)) (foldr_max_le (fun x hx => h x (by simp [hx])))

/-- Every element is at most the running maximum. -/
theorem le_foldr_max {x : Nat} :
    ∀ {t : List Nat}, x ∈ t → x ≤ t.foldr max 0
  | b :: t, h => by
      rw [List.foldr_cons]
      rcases List.mem_cons.1 h with rfl | h2
      · exact le_max_left _ _
      · exact le_trans (le_foldr_max h2) (le_max_right _ _)

/-- For a descending-sorted list of naturals the head is the maximum. -/
theorem sorted_headD_foldr_max (s : List Nat)
    (hs : List.Pairwise (fun a b : Nat => b ≤ a) s) :
    s.foldr max 0 = s.headD 0 := by
  cases s with
  | nil => rfl
  | cons a t =>
      rw [List.foldr_cons, List.headD_cons]
      exact max_eq_left (foldr_max_le (List.pairwise_cons.1 hs).1)

/-- The head of the descending-sorted keys — the `maxLen` that
`pad_packed_sequence` unpacks to — is the maximum key. -/
theorem argsortDesc_headD_key (keys : List Nat) :
    ((argsortDesc keys).map (fun j => keys.getD j 0)).headD 0 =
      keys.foldr max 0 := by
  rw [← sorted_headD_foldr_max _ (argsortDesc_sorted keys)]
  exact List.Perm.foldr_eq (map_getD_perm keys 0 _ (argsortDesc_perm keys)) 0

/-- Gathering a table along the descending argsort of `keys` and scattering
it back through the ascending argsort of that permutation restores the
table: the sort and its computed inverse cancel on the batch axis. -/
theorem unsort_map_getD {α : Type} (keys : List Nat) (f : Nat → α) (d : α) :
    (argsortAsc (argsortDesc keys)).map (fun i =>
      ((argsortDesc keys).map f).getD i d) =
    (List.range keys.length).map f := by
  have hsplen : (argsortDesc keys).length = keys.length := by
    simpa using (argsortDesc_perm keys).length_eq
  have hoplen : (argsortAsc (argsortDesc keys)).length = keys.length := by
    simpa [hsplen] using (argsortAsc_perm (argsortDesc keys)).length_eq
  apply List.ext_getElem
  · simp [hoplen]
  · intro i h1 h2
    rw [List.getElem_map, List.getElem_map, List.getElem_range]
    have hin : i < keys.length := by
      simpa [hoplen] using h1
    have hmem : (argsortAsc (argsortDesc keys)).getD i 0 ∈
        argsortAsc (argsortDesc keys) := by
      rw [List.getD_eq_getElem _ 0 (by omega :
        i < (argsortAsc (argsortDesc keys)).length)]
      exact List.getElem_mem _
    have hjlt : (argsortAsc (argsortDesc keys)).getD i 0 < keys.length := by
      have h3 := ((argsortAsc_perm (argsortDesc keys)).mem_iff).1 hmem
      rw [hsplen] at h3
      exact List.mem_range.1 h3
    have hiop : i < (argsortAsc (argsortDesc keys)).length := by omega
    have he1 : (argsortAsc (argsortDesc keys))[i] =
        (argsortAsc (argsortDesc keys)).getD i 0 :=
      (List.getD_eq_getElem _ 0 hiop).symm
    rw [he1, List.getD_eq_getElem ((argsortDesc keys).map f) d
      (by rw [List.length_map, hsplen]; exact hjlt), List.getElem_map]
    have hjsp : (argsortAsc (argsortDesc keys)).getD i 0 <
        (argsortDesc keys).length := by
      rw [hsplen]
      exact hjlt
    have he2 : (argsortDesc keys)[(argsortAsc (argsortDesc keys)).getD i 0] =
        (argsortDesc keys).getD ((argsortAsc (argsortDesc keys)).getD i 0) 0 :=
      (List.getD_eq_getElem _ 0 hjsp).symm
    rw [he2]
    have hperm2 : List.Perm (argsortDesc keys)
        (List.range (argsortDesc keys).length) := by
      rw [hsplen]
      exact argsortDesc_perm keys
    rw [sortPerm_inverse (argsortDesc keys) hperm2
      (by omega : i < (argsortDesc keys).length)]

/-- The derived length vector has one entry per batch row. -/
theorem seqLengths_length (padIdx : Int) (channels : List Chan) :
    (seqLengths padIdx channels).length = batchOf channels := by
  simp [seqLengths, catChannels]

/-- Every derived length is at most the time length of the batch. -/
theorem seqLengths_le_time (padIdx : Int) (channels : List Chan) :
    ∀ l ∈ seqLengths padIdx channels, l ≤ timeOf channels := by
  intro l hl
  obtain ⟨row, hrow, hcount⟩ := List.mem_map.1 hl
  obtain ⟨b, _, hrow2⟩ := List.mem_map.1 hrow
  rw [← hcount]
  calc row.countP _ ≤ row.length := List.countP_le_length _
    _ = timeOf channels := by rw [← hrow2]; simp

/-- Normal form of `BiLSTMEmbedder.forward` when it succeeds: row `b` of
the output is the LSTM applied to the first `len b` embedded frames of
input row `b`, zero-filled up to the maximum derived length — the
descending sort and the inverse permutation cancel, so row `b` depends only
on input row `b` (and on the batch-wide maximum length, which fixes the
zero fill). -/
theorem forward_unsorted_rows (hiddenSize : Nat) (padIdx : Int)
    (embedder : List Chan → List (List (List Int)))
    (lstmSeq : List (List Int) → List (List Int))
    (channels : List Chan)
    (hch : channels ≠ [])
    (hz : ∀ l ∈ seqLengths padIdx channels, l ≠ 0) :
    forward hiddenSize padIdx embedder lstmSeq channels =
      some ((List.range (seqLengths padIdx channels).length).map (fun b =>
        lstmSeq (((embedder channels).getD b []).take
          ((seqLengths padIdx channels).getD b 0)) ++
        List.replicate ((seqLengths padIdx channels).foldr max 0 -
          (seqLengths padIdx channels).getD b 0)
          (List.replicate (2 * hiddenSize) (0 : Int)))) := by
  have hempty : ¬(channels.isEmpty = true) := by
    cases channels with
    | nil => exact absurd rfl hch
    | cons a l => simp
  have hany : ¬((seqLengths padIdx channels).any (fun l => l == 0) = true) := by
    rw [Bool.not_eq_true, List.any_eq_false]
    intro x hx
    simpa using hz x hx
  have hshow : forward hiddenSize padIdx embedder lstmSeq channels =
      some ((argsortAsc (argsortDesc (seqLengths padIdx channels))).map (fun i =>
        ((((argsortDesc (seqLengths padIdx channels)).map
            (fun j => (embedder channels).getD j [])).zip
          ((argsortDesc (seqLengths padIdx channels)).map
            (fun j => (seqLengths padIdx channels).getD j 0))).map
          (fun p => lstmSeq (p.1.take p.2) ++
            List.replicate
              ((((argsortDesc (seqLengths padIdx channels)).map
                (fun j => (seqLengths padIdx channels).getD j 0)).headD 0) - p.2)
              (List.replicate (2 * hiddenSize) (0 : Int)))).getD i [])) := by
    rw [forward, if_neg hempty, if_neg hany]
  rw [hshow]
  simp only [List.zip_map', List.map_map]
  rw [unsort_map_getD (seqLengths padIdx channels)
    ((fun p => lstmSeq (Prod.fst p |>.take p.2) ++
      List.replicate
        ((((argsortDesc (seqLengths padIdx channels)).map
          (fun j => (seqLengths padIdx channels).getD j 0)).headD 0) - p.2)
        (List.replicate (2 * hiddenSize) (0 : Int))) ∘
      (fun j => ((embedder channels).getD j [],
        (seqLengths padIdx channels).getD j 0))) []]
  rw [argsortDesc_headD_key (seqLengths padIdx channels)]
  rfl

/-- A permuted channel's frame at row `b` is the original channel's frame at
row `σ b`. -/
theorem permuteChan_frame (σ : List Nat) (c : Chan) (b t : Nat)
    (hb : b < σ.length) :
    (permuteChan σ c).frame b t = c.frame (σ.getD b 0) t := by
  cases c with
  | two x =>
      simp only [permuteChan, Chan.frame]
      rw [show (List.map (fun i => x.getD i []) σ).getD b [] =
          x.getD (σ.getD b 0) [] from by
        rw [List.getD_eq_getElem (List.map (fun i => x.getD i []) σ) []
          (by simpa using hb), List.getElem_map, ← List.getD_eq_getElem σ 0 hb]]
  | three x =>
      simp only [permuteChan, Chan.frame]
      rw [show (List.map (fun i => x.getD i []) σ).getD b [] =
          x.getD (σ.getD b 0) [] from by
        rw [List.getD_eq_getElem (List.map (fun i => x.getD i []) σ) []
          (by simpa using hb), List.getElem_map, ← List.getD_eq_getElem σ 0 hb]]

/-- A permuted channel's row slice at `b` is the original's slice at `σ b`. -/
theorem permuteChan_rowAt (σ : List Nat) (c : Chan) (b : Nat)
    (hb : b < σ.length) :
    (permuteChan σ c).rowAt b = c.rowAt (σ.getD b 0) := by
  cases c with
  | two x =>
      simp only [permuteChan, Chan.rowAt]
      rw [show (List.map (fun i => x.getD i []) σ).getD b [] =
          x.getD (σ.getD b 0) [] from by
        rw [List.getD_eq_getElem (List.map (fun i => x.getD i []) σ) []
          (by simpa using hb), List.getElem_map, ← List.getD_eq_getElem σ 0 hb]]
  | three x =>
      simp only [permuteChan, Chan.rowAt]
      rw [show (List.map (fun i => x.getD i []) σ).getD b [] =
          x.getD (σ.getD b 0) [] from by
        rw [List.getD_eq_getElem (List.map (fun i => x.getD i []) σ) []
          (by simpa using hb), List.getElem_map, ← List.getD_eq_getElem σ 0 hb]]

/-- Permuting the batch rows leaves `batchOf` equal to the number of
selected rows. -/
theorem batchOf_map_permuteChan (σ : List Nat) (channels : List Chan)
    (hch : channels ≠ []) :
    batchOf (channels.map (permuteChan σ)) = σ.length := by
  cases channels with
  | nil => exact absurd rfl hch
  | cons c cs =>
      cases c with
      | two x => simp [batchOf, permuteChan, Chan.batch]
      | three x => simp [batchOf, permuteChan, Chan.batch]

/-- Permuting the batch rows of a rectangular nonempty batch preserves the
time length. -/
theorem timeOf_map_permuteChan (σ : List Nat) (channels : List Chan)
    (hch : channels ≠ [])
    (hne : σ ≠ [])
    (h0 : σ.getD 0 0 < batchOf channels)
    (hb0 : (channels.headD (.two [])).batch = batchOf channels)
    (hr0 : (channels.headD (.two [])).rect (timeOf channels)) :
    timeOf (channels.map (permuteChan σ)) = timeOf channels := by
  cases channels with
  | nil => exact absurd rfl hch
  | cons c cs =>
      obtain ⟨s0, σt, rfl⟩ : ∃ s0 σt, σ = s0 :: σt :=
        ⟨σ.headD 0, σ.tail, by cases σ with
          | nil => exact absurd rfl hne
          | cons a l => rfl⟩
      cases c with
      | two x =>
          simp only [List.headD_cons, Chan.batch] at hb0
          simp only [List.headD_cons, Chan.rect] at hr0
          simp only [List.map_cons, timeOf, List.headD_cons, permuteChan,
            Chan.time, List.getD_cons_zero] at h0 ⊢
          have hs0 : s0 < x.length := by omega
          have hx : x.getD s0 [] = x[s0] :=
            List.getD_eq_getElem x [] hs0
          rw [hx]
          have hmem : x[s0] ∈ x := List.getElem_mem hs0
          rw [hr0 _ hmem]
          obtain ⟨r0, xt, rfl⟩ : ∃ r0 xt, x = r0 :: xt :=
            ⟨x.headD [], x.tail, by cases x with
              | nil => simp at hb0; omega
              | cons a l => rfl⟩
          simp only [List.headD_cons]
          exact (hr0 r0 (by simp)).symm
      | three x =>
          simp only [List.headD_cons, Chan.batch] at hb0
          simp only [List.headD_cons, Chan.rect] at hr0
          simp only [List.map_cons, timeOf, List.headD_cons, permuteChan,
            Chan.time, List.getD_cons_zero] at h0 ⊢
          have hs0 : s0 < x.length := by omega
          have hx : x.getD s0 [] = x[s0] :=
            List.getD_eq_getElem x [] hs0
          rw [hx]
          have hmem : x[s0] ∈ x := List.getElem_mem hs0
          rw [hr0 _ hmem]
          obtain ⟨r0, xt, rfl⟩ : ∃ r0 xt, x = r0 :: xt :=
            ⟨x.headD [], x.tail, by cases x with
              | nil => simp at hb0; omega
              | cons a l => rfl⟩
          simp only [List.headD_cons]
          exact (hr0 r0 (by simp)).symm

/-- The derived lengths as a table over batch indices. -/
theorem seqLengths_eq_map_range (padIdx : Int) (channels : List Chan) :
    seqLengths padIdx channels = (List.range (batchOf channels)).map (fun b =>
      ((List.range (timeOf channels)).map (fun t =>
        (channels.map (fun c => c.frame b t)).flatten)).countP
        (fun frame => frame.countP (fun v => v != padIdx) != 0)) := by
  rw [seqLengths, catChannels, List.map_map]
  rfl

/-- The derived lengths of a row-permuted batch are the permuted derived
lengths. -/
theorem seqLengths_map_permuteChan (padIdx : Int) (σ : List Nat)
    (channels : List Chan)
    (hch : channels ≠ [])
    (hmemσ : ∀ i ∈ σ, i < batchOf channels)
    (hT : timeOf (channels.map (permuteChan σ)) = timeOf channels) :
    seqLengths padIdx (channels.map (permuteChan σ)) =
      σ.map (fun i => (seqLengths padIdx channels).getD i 0) := by
  rw [seqLengths_eq_map_range, batchOf_map_permuteChan σ channels hch, hT]
  apply List.ext_getElem
  · simp
  · intro b h1 h2
    rw [List.getElem_map, List.getElem_range, List.getElem_map]
    have hb : b < σ.length := by simpa using h1
    have hσb : σ[b] = σ.getD b 0 := (List.getD_eq_getElem σ 0 hb).symm
    have hσblt : σ.getD b 0 < batchOf channels := by
      rw [← hσb]
      exact hmemσ _ (List.getElem_mem _)
    have hinner : ∀ t : Nat,
        ((channels.map (permuteChan σ)).map (fun c => c.frame b t)) =
        channels.map (fun c => c.frame (σ.getD b 0) t) := by
      intro t
      rw [List.map_map]
      exact List.map_congr_left (fun c _ => permuteChan_frame σ c b t hb)
    rw [hσb, seqLengths_eq_map_range padIdx channels, getD_map_range _ _ hσblt]
    congr 1
    refine List.map_congr_left ?_
    intro t _
    rw [hinner t]

/-- Row `b` of the row-wise embedder on a row-permuted batch is row `σ b`
of the row-wise embedder on the original batch. -/
theorem rowwiseEmbedder_map_permuteChan
    (embedRow : List ChanRow → List (List Int)) (σ : List Nat)
    (channels : List Chan) (b : Nat)
    (hch : channels ≠ [])
    (hb : b < σ.length)
    (hσb : σ.getD b 0 < batchOf channels) :
    (rowwiseEmbedder embedRow (channels.map (permuteChan σ))).getD b [] =
      (rowwiseEmbedder embedRow channels).getD (σ.getD b 0) [] := by
  rw [rowwiseEmbedder, rowwiseEmbedder, batchOf_map_permuteChan σ channels hch,
    getD_map_range _ _ hb, getD_map_range _ _ hσb]
  congr 1
  rw [List.map_map]
  exact List.map_congr_left (fun c _ => permuteChan_rowAt σ c b hb)

/-- Claim C1: `BiLSTMEmbedder.forward` restores the original batch order.
For a rectangular nonempty batch with an external embedder that embeds each
row independently and no all-padding row, permuting the batch rows by any
permutation permutes the output rows identically — output row `i` depends
only on input row `i` (and the batch-wide maximum length) — and, in
particular, the descending-length sort permutation composed with the
inverse permutation computed from it is the identity on the batch axis. -/
theorem bilstm_restores_batch_order (hiddenSize : Nat) (padIdx : Int)
    (embedRow : List ChanRow → List (List Int))
    (lstmSeq : List (List Int) → List (List Int))
    (channels : List Chan) (σ : List Nat)
    (hch : channels ≠ [])
    (hB : 0 < batchOf channels)
    (hσ : List.Perm σ (List.range (batchOf channels)))
    (hbatch : ∀ c ∈ channels, c.batch = batchOf channels)
    (hrect : ∀ c ∈ channels, c.rect (timeOf channels))
    (hz : ∀ l ∈ seqLengths padIdx channels, l ≠ 0) :
    (forward hiddenSize padIdx (rowwiseEmbedder embedRow) lstmSeq
        (channels.map (permuteChan σ)) =
      Option.map (fun out => σ.map (fun i => out.getD i []))
        (forward hiddenSize padIdx (rowwiseEmbedder embedRow) lstmSeq
          channels)) ∧
    ∀ i, i < (seqLengths padIdx channels).length →
      (argsortDesc (seqLengths padIdx channels)).getD
        ((argsortAsc (argsortDesc (seqLengths padIdx channels))).getD i 0)
        0 = i := by
  have hn : (seqLengths padIdx channels).length = batchOf channels :=
    seqLengths_length padIdx channels
  have hinv : ∀ i, i < (seqLengths padIdx channels).length →
      (argsortDesc (seqLengths padIdx channels)).getD
        ((argsortAsc (argsortDesc (seqLengths padIdx channels))).getD i 0)
        0 = i := by
    intro i hi
    have hsplen : (argsortDesc (seqLengths padIdx channels)).length =
        (seqLengths padIdx channels).length := by
      simpa using (argsortDesc_perm (seqLengths padIdx channels)).length_eq
    exact sortPerm_inverse (argsortDesc (seqLengths padIdx channels))
      (by rw [hsplen]; exact argsortDesc_perm (seqLengths padIdx channels))
      (by omega)
  refine ⟨?_, hinv⟩
  have hσlen : σ.length = batchOf channels := by simpa using hσ.length_eq
  have hmemσ : ∀ i ∈ σ, i < batchOf channels := fun i hi =>
    List.mem_range.1 (hσ.mem_iff.1 hi)
  have hch' : channels.map (permuteChan σ) ≠ [] := by
    cases channels with
    | nil => exact absurd rfl hch
    | cons a l => simp
  have hσne : σ ≠ [] := by
    intro h
    rw [h] at hσlen
    simp at hσlen
    omega
  have hσpos : 0 < σ.length := by
    cases σ with
    | nil => exact absurd rfl hσne
    | cons a l => simp
  have h00 : σ.getD 0 0 < batchOf channels := by
    have hm : σ.getD 0 0 ∈ σ := by
      rw [List.getD_eq_getElem σ 0 hσpos]
      exact List.getElem_mem _
    exact hmemσ _ hm
  have hb0 : (channels.headD (.two [])).batch = batchOf channels := by
    cases channels with
    | nil => exact absurd rfl hch
    | cons a l => exact hbatch _ (by simp)
  have hr0 : (channels.headD (.two [])).rect (timeOf channels) := by
    cases channels with
    | nil => exact absurd rfl hch
    | cons a l => exact hrect _ (by simp)
  have hT : timeOf (channels.map (permuteChan σ)) = timeOf channels :=
    timeOf_map_permuteChan σ channels hch hσne h00 hb0 hr0
  have hlensp : seqLengths padIdx (channels.map (permuteChan σ)) =
      σ.map (fun i => (seqLengths padIdx channels).getD i 0) :=
    seqLengths_map_permuteChan padIdx σ channels hch hmemσ hT
  have hσperm : List.Perm σ (List.range (seqLengths padIdx channels).length) := by
    rw [hn]
    exact hσ
  have hfold : (σ.map (fun i => (seqLengths padIdx channels).getD i 0)).foldr
      max 0 = (seqLengths padIdx channels).foldr max 0 :=
    List.Perm.foldr_eq
      (map_getD_perm (seqLengths padIdx channels) 0 σ hσperm) 0
  have hz' : ∀ l ∈ seqLengths padIdx (channels.map (permuteChan σ)), l ≠ 0 := by
    rw [hlensp]
    intro l hl
    obtain ⟨i, hiσ, hil⟩ := List.mem_map.1 hl
    have hilt : i < (seqLengths padIdx channels).length := by
      rw [hn]
      exact hmemσ i hiσ
    rw [← hil, List.getD_eq_getElem (seqLengths padIdx channels) 0 hilt]
    exact hz _ (List.getElem_mem _)
  rw [forward_unsorted_rows hiddenSize padIdx _ lstmSeq _ hch' hz',
    forward_unsorted_rows hiddenSize padIdx _ lstmSeq _ hch hz,
    Option.map_some']
  congr 1
  simp only [hlensp, List.length_map, hfold]
  apply List.ext_getElem
  · simp
  · intro b h1 h2
    have hb : b < σ.length := by simpa using h1
    rw [List.getElem_map, List.getElem_range, List.getElem_map]
    have hσb : σ[b] = σ.getD b 0 := (List.getD_eq_getElem σ 0 hb).symm
    have hσblt : σ.getD b 0 < batchOf channels := by
      rw [← hσb]
      exact hmemσ _ (List.getElem_mem _)
    have hgetlen : (σ.map (fun i => (seqLengths padIdx channels).getD i 0)).getD
        b 0 = (seqLengths padIdx channels).getD (σ.getD b 0) 0 := by
      rw [List.getD_eq_getElem _ 0 (by simpa using hb), List.getElem_map, hσb]
    have hgetemb := rowwiseEmbedder_map_permuteChan embedRow σ channels b hch
      hb hσblt
    rw [hσb, hgetlen, hgetemb]
    rw [List.getD_eq_getElem
      ((List.range (seqLengths padIdx channels).length).map _) []
      (by rw [List.length_map, List.length_range, hn]; exact hσblt),
      List.getElem_map, List.getElem_range]

/-- Witness for claim C1: a concrete (2, 2) single-channel batch with the
swap permutation, an embedder that maps every row to a fixed (2, 1) table,
and the identity in place of the LSTM. -/
theorem bilstm_restores_batch_order_witness :
    (forward 1 0 (rowwiseEmbedder (fun _ => [[(1 : Int)], [1]]))
        (fun s => s) ([Chan.two [[5, 7], [6, 0]]].map (permuteChan [1, 0])) =
      Option.map (fun out => [1, 0].map (fun i => out.getD i []))
        (forward 1 0 (rowwiseEmbedder (fun _ => [[(1 : Int)], [1]]))
          (fun s => s) [Chan.two [[5, 7], [6, 0]]])) ∧
    ∀ i, i < (seqLengths 0 [Chan.two [[5, 7], [6, 0]]]).length →
      (argsortDesc (seqLengths 0 [Chan.two [[5, 7], [6, 0]]])).getD
        ((argsortAsc (argsortDesc
          (seqLengths 0 [Chan.two [[5, 7], [6, 0]]]))).getD i 0) 0 = i :=
  bilstm_restores_batch_order 1 0 (fun _ => [[(1 : Int)], [1]]) (fun s => s)
    [Chan.two [[5, 7], [6, 0]]] [1, 0] (by simp) (by decide) (by decide)
    (by decide) (by decide) (by decide)

/-- Length of one zero-filled output row of the recurrent embedder. -/
theorem padded_row_length (hiddenSize : Nat)
    (lstmSeq : List (List Int) → List (List Int))
    (e : List (List Int)) (len maxv : Nat)
    (hlstmLen : ∀ s, (lstmSeq s).length = s.length)
    (hle : len ≤ e.length) (hlm : len ≤ maxv) :
    (lstmSeq (e.take len) ++ List.replicate (maxv - len)
      (List.replicate (2 * hiddenSize) (0 : Int))).length = maxv := by
  rw [List.length_append, hlstmLen, List.length_take, List.length_replicate]
  omega

/-- Claim C3 (amended): when every derived length is positive, the channel
list is nonempty, the LSTM abstraction is length preserving with output
width `2 * hidden_size`, and the embedder provides at least `timeOf` frames
per row, `BiLSTMEmbedder.forward` returns a dense tensor of shape
`(batch, maxLen, 2*hidden_size)` — where `maxLen` is the MAXIMUM derived
true length, not the input sequence length — and the output at every
position at or beyond a sequence's derived true length is the zero
vector. -/
theorem bilstm_output_shape_zero_fill (hiddenSize : Nat) (padIdx : Int)
    (embedder : List Chan → List (List (List Int)))
    (lstmSeq : List (List Int) → List (List Int))
    (channels : List Chan)
    (hch : channels ≠ [])
    (hz : ∀ l ∈ seqLengths padIdx channels, l ≠ 0)
    (hlstmLen : ∀ s, (lstmSeq s).length = s.length)
    (hlstmW : ∀ s, ∀ r ∈ lstmSeq s, r.length = 2 * hiddenSize)
    (hembRows : ∀ b, b < (seqLengths padIdx channels).length →
      timeOf channels ≤ ((embedder channels).getD b []).length) :
    ∃ out, forward hiddenSize padIdx embedder lstmSeq channels = some out ∧
      out.length = (seqLengths padIdx channels).length ∧
      (∀ r ∈ out, r.length = (seqLengths padIdx channels).foldr max 0) ∧
      (∀ r ∈ out, ∀ fr ∈ r, fr.length = 2 * hiddenSize) ∧
      ∀ b, b < (seqLengths padIdx channels).length →
        ∀ t, (seqLengths padIdx channels).getD b 0 ≤ t →
          t < (seqLengths padIdx channels).foldr max 0 →
          (out.getD b []).getD t [] =
            List.replicate (2 * hiddenSize) (0 : Int) := by
  have hlb_le_time : ∀ b, b < (seqLengths padIdx channels).length →
      (seqLengths padIdx channels).getD b 0 ≤ timeOf channels := by
    intro b hb
    rw [List.getD_eq_getElem _ 0 hb]
    exact seqLengths_le_time padIdx channels _ (List.getElem_mem _)
  have hlb_le_max : ∀ b, b < (seqLengths padIdx channels).length →
      (seqLengths padIdx channels).getD b 0 ≤
        (seqLengths padIdx channels).foldr max 0 := by
    intro b hb
    rw [List.getD_eq_getElem _ 0 hb]
    exact le_foldr_max (List.getElem_mem _)
  refine ⟨_, forward_unsorted_rows hiddenSize padIdx embedder lstmSeq channels
    hch hz, by simp, ?_, ?_, ?_⟩
  · intro r hr
    obtain ⟨b, hbmem, hbeq⟩ := List.mem_map.1 hr
    have hb : b < (seqLengths padIdx channels).length := List.mem_range.1 hbmem
    rw [← hbeq]
    exact padded_row_length hiddenSize lstmSeq _ _ _ hlstmLen
      (le_trans (hlb_le_time b hb) (hembRows b hb)) (hlb_le_max b hb)
  · intro r hr fr hfr
    obtain ⟨b, hbmem, hbeq⟩ := List.mem_map.1 hr
    rw [← hbeq] at hfr
    rcases List.mem_append.1 hfr with hfr1 | hfr2
    · exact hlstmW _ _ hfr1
    · rw [List.eq_of_mem_replicate hfr2]
      simp
  · intro b hb t ht1 ht2
    rw [getD_map_range _ _ hb]
    have hlenA : (lstmSeq (((embedder channels).getD b []).take
        ((seqLengths padIdx channels).getD b 0))).length =
        (seqLengths padIdx channels).getD b 0 := by
      rw [hlstmLen, List.length_take]
      exact min_eq_left (le_trans (hlb_le_time b hb) (hembRows b hb))
    rw [List.getD_append_right _ _ _ _ (by omega)]
    rw [hlenA]
    rw [List.getD_eq_getElem _ _ (by
      rw [List.length_replicate]
      omega)]
    exact List.getElem_replicate _ _

/-- Witness for the amended claim C3 at a concrete (2, 2) single-channel
batch with derived lengths [1, 2]. -/
theorem bilstm_output_shape_zero_fill_witness :
    ∃ out, forward 1 0 (fun _ => [[[(7 : Int)], [8]], [[7], [8]]])
        (fun s => s.map (fun _ => [(0 : Int), 0]))
        [Chan.two [[5, 0], [3, 4]]] = some out ∧
      out.length = (seqLengths 0 [Chan.two [[5, 0], [3, 4]]]).length ∧
      (∀ r ∈ out, r.length =
        (seqLengths 0 [Chan.two [[5, 0], [3, 4]]]).foldr max 0) ∧
      (∀ r ∈ out, ∀ fr ∈ r, fr.length = 2 * 1) ∧
      ∀ b, b < (seqLengths 0 [Chan.two [[5, 0], [3, 4]]]).length →
        ∀ t, (seqLengths 0 [Chan.two [[5, 0], [3, 4]]]).getD b 0 ≤ t →
          t < (seqLengths 0 [Chan.two [[5, 0], [3, 4]]]).foldr max 0 →
          (out.getD b []).getD t [] = List.replicate (2 * 1) (0 : Int) :=
  bilstm_output_shape_zero_fill 1 0 (fun _ => [[[(7 : Int)], [8]], [[7], [8]]])
    (fun s => s.map (fun _ => [(0 : Int), 0])) [Chan.two [[5, 0], [3, 4]]]
    (by simp) (by decide) (by intro s; simp)
    (by
      intro s r hr
      rcases List.mem_map.1 hr with ⟨a, _, rfl⟩
      rfl)
    (by
      intro b hb
      have hb2 : b < 2 := by
        simpa using hb
      interval_cases b <;> decide)

/-- Counterexample for claim C3 as stated: a (1, 2) batch whose single row
has derived length 1 produces an output whose time dimension is 1, not the
input sequence length 2 — `pad_packed_sequence` unpacks only up to the
longest length in the batch. -/
theorem bilstm_time_dim_not_input_length :
    forward 1 0 (fun _ => [[[(7 : Int)], [8]]])
        (fun s => s.map (fun _ => [(9 : Int), 9]))
        [Chan.two [[(5 : Int), 0]]] = some [[[(9 : Int), 9]]] ∧
    timeOf [Chan.two [[(5 : Int), 0]]] = 2 ∧
    ¬ ((([[[(9 : Int), 9]]] : List (List (List Int))).getD 0 []).length =
      timeOf [Chan.two [[(5 : Int), 0]]]) := by
  refine ⟨by decide, by decide, by decide⟩

/-- Claim C10: the time dimension of `BiLSTMEmbedder.forward`'s output is
the maximum derived true sequence length over the batch, and it is strictly
smaller than the input sequence length whenever every sequence in the batch
ends with at least one padding position (its last time step has all channel
entries equal to the padding index). -/
theorem bilstm_time_dim_is_max_length (hiddenSize : Nat) (padIdx : Int)
    (embedder : List Chan → List (List (List Int)))
    (lstmSeq : List (List Int) → List (List Int))
    (channels : List Chan)
    (hch : channels ≠ [])
    (hz : ∀ l ∈ seqLengths padIdx channels, l ≠ 0)
    (hlstmLen : ∀ s, (lstmSeq s).length = s.length)
    (hembRows : ∀ b, b < (seqLengths padIdx channels).length →
      timeOf channels ≤ ((embedder channels).getD b []).length) :
    ∃ out, forward hiddenSize padIdx embedder lstmSeq channels = some out ∧
      (∀ r ∈ out, r.length = (seqLengths padIdx channels).foldr max 0) ∧
      ((0 < timeOf channels ∧
        (∀ b, b < (seqLengths padIdx channels).length →
          ∀ v ∈ ((catChannels channels).getD b []).getD
            (timeOf channels - 1) [], v = padIdx)) →
        (seqLengths padIdx channels).foldr max 0 < timeOf channels) := by
  refine ⟨_, forward_unsorted_rows hiddenSize padIdx embedder lstmSeq channels
    hch hz, ?_, ?_⟩
  · intro r hr
    obtain ⟨b, hbmem, hbeq⟩ := List.mem_map.1 hr
    have hb : b < (seqLengths padIdx channels).length := List.mem_range.1 hbmem
    have hlb_le_time : (seqLengths padIdx channels).getD b 0 ≤
        timeOf channels := by
      rw [List.getD_eq_getElem _ 0 hb]
      exact seqLengths_le_time padIdx channels _ (List.getElem_mem _)
    have hlb_le_max : (seqLengths padIdx channels).getD b 0 ≤
        (seqLengths padIdx channels).foldr max 0 := by
      rw [List.getD_eq_getElem _ 0 hb]
      exact le_foldr_max (List.getElem_mem _)
    rw [← hbeq]
    exact padded_row_length hiddenSize lstmSeq _ _ _ hlstmLen
      (le_trans hlb_le_time (hembRows b hb)) hlb_le_max
  · rintro ⟨hT, hpad⟩
    have hbound : ∀ x ∈ seqLengths padIdx channels, x ≤ timeOf channels - 1 := by
      intro x hx
      rw [seqLengths_eq_map_range] at hx
      obtain ⟨b, hbmem, hbeq⟩ := List.mem_map.1 hx
      have hbB : b < batchOf channels := List.mem_range.1 hbmem
      have hbn : b < (seqLengths padIdx channels).length := by
        rw [seqLengths_length]
        exact hbB
      set row := (List.range (timeOf channels)).map (fun t =>
        (channels.map (fun c => c.frame b t)).flatten) with hrow
      have hrowlen : row.length = timeOf channels := by simp [hrow]
      have hcatrow : (catChannels channels).getD b [] = row := by
        rw [catChannels, getD_map_range _ _ hbB]
      have hTrow : timeOf channels - 1 < row.length := by omega
      have hlast : row.getD (timeOf channels - 1) [] =
          row[timeOf channels - 1] :=
        List.getD_eq_getElem row [] hTrow
      have hlastframe : ∀ v ∈ row[timeOf channels - 1], v = padIdx := by
        intro v hv
        refine hpad b hbn v ?_
        rw [hcatrow, hlast]
        exact hv
      have hpredfalse :
          ¬ ((row[timeOf channels - 1]).countP
            (fun v => v != padIdx) != 0) = true := by
        have hc0 : (row[timeOf channels - 1]).countP
            (fun v => v != padIdx) = 0 := by
          rw [List.countP_eq_zero]
          intro v hv
          simp [hlastframe v hv]
        simp [hc0]
      have hlt : row.countP
          (fun frame => frame.countP (fun v => v != padIdx) != 0) <
          row.length := by
        rcases Nat.lt_or_ge (row.countP _) row.length with h | h
        · exact h
        · exfalso
          have heq : row.countP
              (fun frame => frame.countP (fun v => v != padIdx) != 0) =
              row.length :=
            le_antisymm (List.countP_le_length _) h
          have hall := List.countP_eq_length.1 heq
          exact hpredfalse (hall _ (List.getElem_mem (by omega)))
      omega
    have hfold := foldr_max_le hbound
    omega

/-- Witness for claim C10 at a concrete (2, 2) single-channel batch in
which both rows end with a padding entry. -/
theorem bilstm_time_dim_is_max_length_witness :
    ∃ out, forward 1 0 (fun _ => [[[(7 : Int)], [8]], [[7], [8]]])
        (fun s => s.map (fun _ => [(0 : Int), 0]))
        [Chan.two [[5, 0], [3, 0]]] = some out ∧
      (∀ r ∈ out, r.length =
        (seqLengths 0 [Chan.two [[5, 0], [3, 0]]]).foldr max 0) ∧
      ((0 < timeOf [Chan.two [[(5 : Int), 0], [3, 0]]] ∧
        (∀ b, b < (seqLengths 0 [Chan.two [[5, 0], [3, 0]]]).length →
          ∀ v ∈ ((catChannels [Chan.two [[5, 0], [3, 0]]]).getD b []).getD
            (timeOf [Chan.two [[(5 : Int), 0], [3, 0]]] - 1) [], v = 0)) →
        (seqLengths 0 [Chan.two [[5, 0], [3, 0]]]).foldr max 0 <
          timeOf [Chan.two [[(5 : Int), 0], [3, 0]]]) :=
  bilstm_time_dim_is_max_length 1 0
    (fun _ => [[[(7 : Int)], [8]], [[7], [8]]])
    (fun s => s.map (fun _ => [(0 : Int), 0])) [Chan.two [[5, 0], [3, 0]]]
    (by simp) (by decide) (by intro s; simp)
    (by
      intro b hb
      have hb2 : b < 2 := by
        simpa using hb
      interval_cases b <;> decide)
